import Mathlib

/-!
Shallow embedding of the toqst-typer speed-typing core
(src/src/lib.rs module `toqst` and src/src/main.rs).

Rust `Vec` is modelled as `List`, in-place mutation as functional update
(`List.set`, append, `List.dropLast`), `usize` as `Nat` (all subtractions in
the source are guarded by the invariants proved below, so truncated `Nat`
subtraction agrees with `usize` there), and panics (`unwrap`, `assert!`,
`SystemTime::elapsed` errors) as `Option.none`.  A ratatui `Style` is carried
by the code only through its foreground color, so a character's style is
embedded as that color.
-/

/-- The ratatui colors the program uses (lib.rs constants). -/
inductive RColor where
  | Red
  | Gray
  | Green
deriving DecidableEq

/-- lib.rs: `MISTYPE_COLOR` — user types the wrong letter. -/
def MISTYPE_COLOR : RColor := RColor.Red

/-- lib.rs: `UNTYPED_COLOR` — letter that has not been typed yet. -/
def UNTYPED_COLOR : RColor := RColor.Gray

/-- lib.rs: `CORRECT_COLOR` — user types the correct letter. -/
def CORRECT_COLOR : RColor := RColor.Green

/-- lib.rs: `MISTYPE_EXTRA_COLOR` — extra letter beyond the word. -/
def MISTYPE_EXTRA_COLOR : RColor := RColor.Red

/-- lib.rs: `enum TypedState`. -/
inductive TypedState where
  | Mistype
  | Untyped
  | Correct
  | MistypeExtra
deriving DecidableEq

/-- lib.rs: `struct StyledChar` (the `Style` reduced to its fg color). -/
structure StyledChar where
  char : Char
  style : RColor
deriving DecidableEq

/-- lib.rs: `StyledChar::new`. -/
def StyledChar.new (ch : Char) : StyledChar :=
  ⟨ch, UNTYPED_COLOR⟩

/-- lib.rs: `StyledChar::new_bad_char`. -/
def StyledChar.new_bad_char (ch : Char) : StyledChar :=
  ⟨ch, MISTYPE_EXTRA_COLOR⟩

/-- lib.rs: `StyledChar::switch_typed_state` (sets the fg color from the state). -/
def StyledChar.switch_typed_state (c : StyledChar) (state : TypedState) : StyledChar :=
  let color : RColor :=
    match state with
    | TypedState.Mistype => MISTYPE_COLOR
    | TypedState.Untyped => UNTYPED_COLOR
    | TypedState.Correct => CORRECT_COLOR
    | TypedState.MistypeExtra => MISTYPE_EXTRA_COLOR
  ⟨c.char, color⟩

/-- lib.rs: `StyledChar::get_char_data`. -/
def StyledChar.get_char_data (c : StyledChar) : Char :=
  c.char

/-- lib.rs: `struct StyledWord`. -/
structure StyledWord where
  chars : List StyledChar
  og_len : Nat
deriving DecidableEq

/-- lib.rs: `StyledWord::from_chars`. -/
def StyledWord.from_chars (cs : List Char) : StyledWord :=
  ⟨cs.map StyledChar.new, cs.length⟩

/-- lib.rs: `StyledWord::from_string`. -/
def StyledWord.from_string (s : String) : StyledWord :=
  StyledWord.from_chars s.toList

/-- lib.rs: `StyledWord::append_char` (`Vec::push`). -/
def StyledWord.append_char (w : StyledWord) (ch : StyledChar) : StyledWord :=
  ⟨w.chars ++ [ch], w.og_len⟩

/-- lib.rs: `StyledWord::get_mut_ch` (`Vec::get_mut`, read part). -/
def StyledWord.get_mut_ch (w : StyledWord) (index : Nat) : Option StyledChar :=
  w.chars.get? index

/-- main.rs: `const EXTRA_CHAR_BOUNDARY: usize = 5`. -/
def EXTRA_CHAR_BOUNDARY : Nat := 5

/-- main.rs: `struct CursorWord`. -/
structure CursorWord where
  word : StyledWord
  cursor_idx : Nat
deriving DecidableEq

/-- main.rs: `struct UserCursor`. -/
structure UserCursor where
  word_idx : Nat
  words : List CursorWord
deriving DecidableEq

/-- main.rs: `UserCursor::is_game_done`. -/
def UserCursor.is_game_done (c : UserCursor) : Bool :=
  c.word_idx == c.words.length

/-- main.rs: `UserCursor::handle_space_press`. -/
def UserCursor.handle_space_press (c : UserCursor) : UserCursor :=
  ⟨c.word_idx + 1, c.words⟩

/-- The body of main.rs `UserCursor::handle_key_press` acting on the current
word: mutate the slot under the cursor, or append a bad char subject to the
`EXTRA_CHAR_BOUNDARY` saturation check; `none` is the `assert!` panic. -/
def CursorWord.key_press (cw : CursorWord) (pressed_char : Char) : Option CursorWord :=
  match cw.word.get_mut_ch cw.cursor_idx with
  | some ch =>
      let ch' :=
        if ch.get_char_data == pressed_char then
          ch.switch_typed_state TypedState.Correct
        else
          ch.switch_typed_state TypedState.Mistype
      some ⟨⟨cw.word.chars.set cw.cursor_idx ch', cw.word.og_len⟩, cw.cursor_idx + 1⟩
  | none =>
      if cw.word.chars.length + 1 - cw.word.og_len > EXTRA_CHAR_BOUNDARY then
        some cw
      else if cw.word.og_len ≤ cw.word.chars.length then
        some ⟨cw.word.append_char (StyledChar.new_bad_char pressed_char), cw.cursor_idx + 1⟩
      else
        none

/-- main.rs: `UserCursor::handle_key_press`; `none` models the `unwrap`
panic when `word_idx` is out of bounds, or the inner `assert!`. -/
def UserCursor.handle_key_press (c : UserCursor) (pressed_char : Char) : Option UserCursor :=
  match c.words.get? c.word_idx with
  | none => none
  | some cw =>
      (cw.key_press pressed_char).map fun cw' => ⟨c.word_idx, c.words.set c.word_idx cw'⟩

/-- The tail of main.rs `UserCursor::handle_delete` (the `cursor_idx > 0`
case acting on the current word): decrement the cursor, then either pop the
extra character or revert the slot to Untyped. -/
def CursorWord.delete_in_word (cw : CursorWord) : Option CursorWord :=
  let cursor_idx := cw.cursor_idx - 1
  if cw.word.og_len ≤ cursor_idx then
    some ⟨⟨cw.word.chars.dropLast, cw.word.og_len⟩, cursor_idx⟩
  else
    match cw.word.get_mut_ch cursor_idx with
    | none => none
    | some ch =>
        some ⟨⟨cw.word.chars.set cursor_idx (ch.switch_typed_state TypedState.Untyped),
               cw.word.og_len⟩, cursor_idx⟩

/-- main.rs: `UserCursor::handle_delete`. -/
def UserCursor.handle_delete (c : UserCursor) : Option UserCursor :=
  match c.words.get? c.word_idx with
  | none => none
  | some cw =>
      if cw.cursor_idx == 0 && c.word_idx == 0 then
        some c
      else if cw.cursor_idx == 0 then
        some ⟨c.word_idx - 1, c.words⟩
      else
        (cw.delete_in_word).map fun cw' => ⟨c.word_idx, c.words.set c.word_idx cw'⟩

/-- The initial cursor built in main.rs `App::new` from the word list. -/
def initCursor (targets : List String) : UserCursor :=
  ⟨0, targets.map fun t => ⟨StyledWord.from_string t, 0⟩⟩

/-- Iterate `handle_key_press` over a list of typed characters. -/
def UserCursor.typeChars (c : UserCursor) (cs : List Char) : Option UserCursor :=
  match cs with
  | [] => some c
  | ch :: rest =>
      match c.handle_key_press ch with
      | none => none
      | some c' => c'.typeChars rest

/-- main.rs: `enum TypingEvent` (SystemTime as seconds since an epoch). -/
inductive TypingEvent where
  | AFK
  | TYPED (start_time : Nat)
deriving DecidableEq

/-- main.rs: `struct App` (layout dropped: rendering-only). -/
structure App where
  user_typing : TypingEvent
  should_exit : Bool
  cursor : UserCursor
deriving DecidableEq

/-- main.rs: `App::new`. -/
def App.new (words : List String) : App :=
  ⟨TypingEvent.AFK, false, initCursor words⟩

/-- main.rs: `App::is_typing_time_done`, with the sampled clock `now` (in
seconds) passed explicitly; `none` is the panic on a backwards clock
(`SystemTime::elapsed` returning `Err`). -/
def App.is_typing_time_done (a : App) (now : Nat) : Option Bool :=
  match a.user_typing with
  | TypingEvent.TYPED start_time =>
      if now < start_time then none
      else some (decide (now - start_time > 20))
  | TypingEvent.AFK => some false

/-- The key events main.rs `App::handle_events` distinguishes. -/
inductive KeyCode where
  | Char (ch : Char)
  | Backspace
  | Delete
  | Esc
  | Other
deriving DecidableEq

/-- main.rs: `App::handle_events` for one key-press event, with the sampled
clock `now` passed explicitly (`SystemTime::now()`). -/
def App.handle_events (a : App) (code : KeyCode) (now : Nat) : Option App :=
  match code with
  | KeyCode.Char ch =>
      match (if ch == ' ' then some a.cursor.handle_space_press
             else a.cursor.handle_key_press ch) with
      | none => none
      | some cur =>
          match a.user_typing with
          | TypingEvent.AFK => some ⟨TypingEvent.TYPED now, a.should_exit, cur⟩
          | TypingEvent.TYPED t => some ⟨TypingEvent.TYPED t, a.should_exit, cur⟩
  | KeyCode.Backspace => (a.cursor.handle_delete).map fun cur => ⟨a.user_typing, a.should_exit, cur⟩
  | KeyCode.Delete => (a.cursor.handle_delete).map fun cur => ⟨a.user_typing, a.should_exit, cur⟩
  | KeyCode.Esc => some ⟨a.user_typing, true, a.cursor⟩
  | KeyCode.Other => some a

/-- One iteration of the body of main.rs `App::run` after the draw: handle
the event, then recompute `should_exit` from game completion and the timer. -/
def App.run_step (a : App) (code : KeyCode) (now : Nat) : Option App :=
  match a.handle_events code now with
  | none => none
  | some a1 =>
      match a1.is_typing_time_done now with
      | none => none
      | some timeUp => some ⟨a1.user_typing, a1.cursor.is_game_done || timeUp, a1.cursor⟩

/-- Per-word structural invariant maintained by the cursor state machine:
the original characters are always present, at most `EXTRA_CHAR_BOUNDARY`
extras exist, the cursor stays inside the word (or just past it), and extra
characters only exist when the cursor sits at the very end of the word. -/
def WordInv (cw : CursorWord) : Prop :=
  cw.word.og_len ≤ cw.word.chars.length ∧
  cw.word.chars.length ≤ cw.word.og_len + EXTRA_CHAR_BOUNDARY ∧
  cw.cursor_idx ≤ cw.word.chars.length ∧
  (cw.word.og_len < cw.word.chars.length → cw.cursor_idx = cw.word.chars.length)

/-- The word's first `og_len` slots carry exactly the target string. -/
def WordMatches (t : String) (cw : CursorWord) : Prop :=
  cw.word.og_len = t.toList.length ∧
  (cw.word.chars.map StyledChar.get_char_data).take cw.word.og_len = t.toList

/-- Session-wide invariant relating a cursor state to the target word list. -/
def SessionInv (targets : List String) (s : UserCursor) : Prop :=
  s.words.length = targets.length ∧
  ∀ i cw t, s.words.get? i = some cw → targets.get? i = some t → WordInv cw ∧ WordMatches t cw

/-- One input event processed by the cursor, as dispatched by
`App::handle_events`. -/
inductive CursorStep : UserCursor → UserCursor → Prop where
  | key (c : Char) (s s' : UserCursor) : s.handle_key_press c = some s' → CursorStep s s'
  | space (s : UserCursor) : CursorStep s s.handle_space_press
  | del (s s' : UserCursor) : s.handle_delete = some s' → CursorStep s s'

/-- Cursor states reachable from the initial session over `targets`. -/
inductive ReachableCursor (targets : List String) : UserCursor → Prop where
  | start : ReachableCursor targets (initCursor targets)
  | step {s s' : UserCursor} : ReachableCursor targets s → CursorStep s s' →
      ReachableCursor targets s'

/-! ### Generic list helpers -/

theorem set_of_get?_eq {α : Type _} (l : List α) (n : Nat) (a : α)
    (h : l.get? n = some a) : l.set n a = l := by
  apply List.ext_get?
  intro i
  rw [List.get?_set]
  split
  · next heq => subst heq; rw [h]; rfl
  · rfl

theorem get?_append_cons_length {α : Type _} (l r : List α) (x : α) :
    (l ++ x :: r).get? l.length = some x := by
  induction l with
  | nil => rfl
  | cons a l ih => simpa using ih

theorem set_append_cons_length {α : Type _} (l r : List α) (x y : α) :
    (l ++ x :: r).set l.length y = l ++ y :: r := by
  simp [List.set_append]

/-! ### Facts about the character model -/

theorem switch_typed_state_char (c : StyledChar) (st : TypedState) :
    (c.switch_typed_state st).char = c.char := rfl

theorem get_char_data_new (ch : Char) : (StyledChar.new ch).get_char_data = ch := rfl

/-- The graded result of typing `typed` against an expected character, as
produced by `handle_key_press` on a fresh (Untyped) slot. -/
def gradeChar (expected typed : Char) : StyledChar :=
  if expected == typed then ⟨expected, CORRECT_COLOR⟩ else ⟨expected, MISTYPE_COLOR⟩

theorem gradeChar_of_new (expected typed : Char) :
    (if (StyledChar.new expected).get_char_data == typed then
        (StyledChar.new expected).switch_typed_state TypedState.Correct
      else (StyledChar.new expected).switch_typed_state TypedState.Mistype)
      = gradeChar expected typed := by
  by_cases h : expected == typed <;> simp [StyledChar.new, StyledChar.get_char_data,
    StyledChar.switch_typed_state, gradeChar, h]

theorem gradeChar_self (c : Char) : gradeChar c c = ⟨c, CORRECT_COLOR⟩ := by
  simp [gradeChar]

theorem zipWith_gradeChar_self (target : List Char) :
    List.zipWith gradeChar target target
      = target.map (fun c => (⟨c, CORRECT_COLOR⟩ : StyledChar)) := by
  induction target with
  | nil => rfl
  | cons c rest ih => simp [List.zipWith_cons_cons, gradeChar_self, ih]

/-! ### Word-level characterization of `handle_key_press` -/

theorem key_press_spec (cw : CursorWord) (c : Char) (hinv : WordInv cw) :
    ∃ cw', cw.key_press c = some cw' ∧ WordInv cw' ∧
      cw'.word.og_len = cw.word.og_len ∧
      (cw'.word.chars.map StyledChar.get_char_data).take cw.word.og_len
        = (cw.word.chars.map StyledChar.get_char_data).take cw.word.og_len := by
  obtain ⟨hog, hmax, hcur, hext⟩ := hinv
  unfold CursorWord.key_press
  cases hch : cw.word.get_mut_ch cw.cursor_idx with
  | some ch =>
      have hlt : cw.cursor_idx < cw.word.chars.length := by
        rcases List.get?_eq_some.mp hch with ⟨h, _⟩
        exact h
      have hchv : cw.word.chars.get? cw.cursor_idx = some ch := hch
      have hogeq : cw.word.og_len = cw.word.chars.length := by
        rcases Nat.lt_or_ge cw.word.og_len cw.word.chars.length with h | h
        · exact absurd (hext h ▸ hlt) (Nat.lt_irrefl _)
        · exact Nat.le_antisymm hog h
      refine ⟨_, rfl, ?_, rfl, ?_⟩
      · unfold WordInv
        simp only [List.length_set]
        omega
      · have hcharval :
            ((if ch.get_char_data == c then ch.switch_typed_state TypedState.Correct
              else ch.switch_typed_state TypedState.Mistype)).get_char_data = ch.char := by
          split <;> rfl
        simp only [List.map_set, hcharval]
        have : (cw.word.chars.map StyledChar.get_char_data).get? cw.cursor_idx
            = some ch.char := by
          rw [List.get?_map, hchv]; rfl
        rw [set_of_get?_eq _ _ _ this]
  | none =>
      have hlen : cw.word.chars.length ≤ cw.cursor_idx := List.get?_eq_none.mp hch
      have hcureq : cw.cursor_idx = cw.word.chars.length := Nat.le_antisymm hcur hlen
      by_cases hsat : cw.word.chars.length + 1 - cw.word.og_len > EXTRA_CHAR_BOUNDARY
      · exact ⟨cw, by simp [hsat], ⟨hog, hmax, hcur, hext⟩, rfl, rfl⟩
      · refine ⟨⟨cw.word.append_char (StyledChar.new_bad_char c), cw.cursor_idx + 1⟩,
          by simp [hsat, hog], ?_, rfl, ?_⟩
        · unfold WordInv
          simp only [StyledWord.append_char, List.length_append, List.length_cons,
            List.length_nil]
          unfold EXTRA_CHAR_BOUNDARY at hsat ⊢
          omega
        · simp only [StyledWord.append_char, List.map_append]
          rw [List.take_append_of_le_length (by simpa using hog)]

/-! ### Word-level characterization of the in-word part of `handle_delete` -/

theorem delete_in_word_spec (cw : CursorWord) (hinv : WordInv cw)
    (hpos : 0 < cw.cursor_idx) :
    ∃ cw', cw.delete_in_word = some cw' ∧ WordInv cw' ∧
      cw'.word.og_len = cw.word.og_len ∧
      (cw'.word.chars.map StyledChar.get_char_data).take cw.word.og_len
        = (cw.word.chars.map StyledChar.get_char_data).take cw.word.og_len := by
  obtain ⟨hog, hmax, hcur, hext⟩ := hinv
  unfold CursorWord.delete_in_word
  by_cases hpop : cw.word.og_len ≤ cw.cursor_idx - 1
  · have hoglt : cw.word.og_len < cw.word.chars.length := by omega
    have hcureq : cw.cursor_idx = cw.word.chars.length := hext hoglt
    refine ⟨⟨⟨cw.word.chars.dropLast, cw.word.og_len⟩, cw.cursor_idx - 1⟩,
      by simp [hpop], ?_, rfl, ?_⟩
    · unfold WordInv
      simp only [List.length_dropLast]
      omega
    · rw [List.map_dropLast, List.dropLast_eq_take, List.take_take]
      congr 1
      simp only [List.length_map]
      omega
  · have hlt : cw.cursor_idx - 1 < cw.word.chars.length := by omega
    obtain ⟨ch, hchv⟩ : ∃ ch, cw.word.chars.get? (cw.cursor_idx - 1) = some ch :=
      ⟨_, List.get?_eq_get hlt⟩
    have hget : cw.word.get_mut_ch (cw.cursor_idx - 1) = some ch := hchv
    refine ⟨⟨⟨cw.word.chars.set (cw.cursor_idx - 1) (ch.switch_typed_state TypedState.Untyped),
        cw.word.og_len⟩, cw.cursor_idx - 1⟩, ?_, ?_, rfl, ?_⟩
    · simp only [hpop, if_false, hget]
    · unfold WordInv
      simp only [List.length_set]
      omega
    · simp only [List.map_set]
      have hmapv : (cw.word.chars.map StyledChar.get_char_data).get? (cw.cursor_idx - 1)
          = some ch.char := by
        rw [List.get?_map, hchv]; rfl
      rw [show (ch.switch_typed_state TypedState.Untyped).get_char_data = ch.char from rfl,
        set_of_get?_eq _ _ _ hmapv]

/-! ### Session invariant preservation -/

theorem sessionInv_set {targets : List String} {s : UserCursor} {k : Nat} {cw cw' : CursorWord}
    (hinv : SessionInv targets s) (hk : s.words.get? k = some cw)
    (hwi : WordInv cw') (hog : cw'.word.og_len = cw.word.og_len)
    (hvals : (cw'.word.chars.map StyledChar.get_char_data).take cw.word.og_len
        = (cw.word.chars.map StyledChar.get_char_data).take cw.word.og_len)
    (j : Nat) : SessionInv targets ⟨j, s.words.set k cw'⟩ := by
  obtain ⟨hlen, hall⟩ := hinv
  refine ⟨by simpa using hlen, ?_⟩
  intro i cwi t hgi hti
  by_cases hik : k = i
  · subst hik
    rw [List.get?_set_eq, hk] at hgi
    have hcwi : cwi = cw' := by
      simpa using hgi.symm
    subst hcwi
    obtain ⟨hwcw, hogm, hvalm⟩ := hall k cw t hk hti
    refine ⟨hwi, ?_, ?_⟩
    · rw [hog]; exact hogm
    · rw [hog, hvals]; exact hvalm
  · rw [List.get?_set_ne _ _ hik] at hgi
    exact hall i cwi t hgi hti

theorem handle_key_press_inv {targets : List String} {s s' : UserCursor} {c : Char}
    (hinv : SessionInv targets s) (h : s.handle_key_press c = some s') :
    SessionInv targets s' := by
  cases hg : s.words.get? s.word_idx with
  | none => simp only [UserCursor.handle_key_press, hg] at h; exact Option.noConfusion h
  | some cw =>
      simp only [UserCursor.handle_key_press, hg] at h
      have hkw : s.word_idx < s.words.length := (List.get?_eq_some.mp hg).1
      have htlt : s.word_idx < targets.length := hinv.1 ▸ hkw
      obtain ⟨t, ht⟩ : ∃ t, targets.get? s.word_idx = some t := ⟨_, List.get?_eq_get htlt⟩
      have hwcw := (hinv.2 _ _ _ hg ht).1
      obtain ⟨cw', hcw', hwi, hog, hvals⟩ := key_press_spec cw c hwcw
      rw [hcw'] at h
      simp only [Option.map_some'] at h
      injection h with h
      subst h
      exact sessionInv_set hinv hg hwi hog hvals _

theorem handle_space_press_inv {targets : List String} {s : UserCursor}
    (hinv : SessionInv targets s) : SessionInv targets s.handle_space_press :=
  ⟨hinv.1, hinv.2⟩

theorem handle_delete_inv {targets : List String} {s s' : UserCursor}
    (hinv : SessionInv targets s) (h : s.handle_delete = some s') :
    SessionInv targets s' := by
  cases hg : s.words.get? s.word_idx with
  | none => simp only [UserCursor.handle_delete, hg] at h; exact Option.noConfusion h
  | some cw =>
      simp only [UserCursor.handle_delete, hg] at h
      split at h
      · injection h with h
        subst h
        exact hinv
      · split at h
        · injection h with h
          subst h
          exact ⟨hinv.1, hinv.2⟩
        · next hne2 =>
            have hpos : 0 < cw.cursor_idx := by
              rcases Nat.eq_zero_or_pos cw.cursor_idx with h0 | h0
              · exact absurd (by simp [h0]) hne2
              · exact h0
            have hkw : s.word_idx < s.words.length := (List.get?_eq_some.mp hg).1
            have htlt : s.word_idx < targets.length := hinv.1 ▸ hkw
            obtain ⟨t, ht⟩ : ∃ t, targets.get? s.word_idx = some t :=
              ⟨_, List.get?_eq_get htlt⟩
            have hwcw := (hinv.2 _ _ _ hg ht).1
            obtain ⟨cw', hcw', hwi, hog, hvals⟩ := delete_in_word_spec cw hwcw hpos
            rw [hcw'] at h
            simp only [Option.map_some'] at h
            injection h with h
            subst h
            exact sessionInv_set hinv hg hwi hog hvals _

theorem initCursor_sessionInv (targets : List String) :
    SessionInv targets (initCursor targets) := by
  refine ⟨by simp [initCursor], ?_⟩
  intro i cw t hgi hti
  simp only [initCursor] at hgi
  rw [List.get?_map, hti] at hgi
  simp only [Option.map_some'] at hgi
  cases hgi
  constructor
  · unfold WordInv StyledWord.from_string StyledWord.from_chars
    simp
  · unfold WordMatches StyledWord.from_string StyledWord.from_chars
    constructor
    · simp
    · simp only [List.map_map]
      have : StyledChar.get_char_data ∘ StyledChar.new = id := rfl
      rw [this, List.map_id]
      simp

theorem reachableCursor_sessionInv {targets : List String} {s : UserCursor}
    (h : ReachableCursor targets s) : SessionInv targets s := by
  induction h with
  | start => exact initCursor_sessionInv targets
  | step _ hs ih =>
      cases hs with
      | key c s1 s1' hk => exact handle_key_press_inv ih hk
      | space s1 => exact handle_space_press_inv ih
      | del s1 s1' hd => exact handle_delete_inv ih hd

/-! ### Computation lemmas for single keystrokes -/

theorem key_press_inrange (cw : CursorWord) (c : Char) (ch : StyledChar)
    (h : cw.word.chars.get? cw.cursor_idx = some ch) :
    cw.key_press c = some ⟨⟨cw.word.chars.set cw.cursor_idx
        (if ch.get_char_data == c then ch.switch_typed_state TypedState.Correct
         else ch.switch_typed_state TypedState.Mistype), cw.word.og_len⟩,
      cw.cursor_idx + 1⟩ := by
  unfold CursorWord.key_press
  rw [show cw.word.get_mut_ch cw.cursor_idx = some ch from h]

theorem key_press_saturated (cw : CursorWord) (c : Char)
    (h : cw.word.chars.get? cw.cursor_idx = none)
    (hsat : cw.word.chars.length + 1 - cw.word.og_len > EXTRA_CHAR_BOUNDARY) :
    cw.key_press c = some cw := by
  unfold CursorWord.key_press
  rw [show cw.word.get_mut_ch cw.cursor_idx = none from h]
  simp [hsat]

theorem key_press_appends (cw : CursorWord) (c : Char)
    (h : cw.word.chars.get? cw.cursor_idx = none)
    (hsat : ¬ cw.word.chars.length + 1 - cw.word.og_len > EXTRA_CHAR_BOUNDARY)
    (hog : cw.word.og_len ≤ cw.word.chars.length) :
    cw.key_press c
      = some ⟨cw.word.append_char (StyledChar.new_bad_char c), cw.cursor_idx + 1⟩ := by
  unfold CursorWord.key_press
  rw [show cw.word.get_mut_ch cw.cursor_idx = none from h]
  simp [hsat, hog]

theorem handle_key_press_eq (s : UserCursor) (k : Nat) (cw cw' : CursorWord) (c : Char)
    (hk : s.word_idx = k) (hw : s.words.get? k = some cw)
    (hcw : cw.key_press c = some cw') :
    s.handle_key_press c = some ⟨k, s.words.set k cw'⟩ := by
  subst hk
  unfold UserCursor.handle_key_press
  rw [hw]
  show (cw.key_press c).map _ = _
  rw [hcw]
  rfl

/-! ### Word-level iteration of keystrokes -/

/-- Fold `key_press` over a list of typed characters, at the level of a
single word. -/
def CursorWord.typeWord (cw : CursorWord) (cs : List Char) : Option CursorWord :=
  match cs with
  | [] => some cw
  | c :: rest =>
      match cw.key_press c with
      | none => none
      | some cw1 => cw1.typeWord rest

theorem typeChars_eq_typeWord (cs : List Char) :
    ∀ (s : UserCursor) (k : Nat) (cw : CursorWord),
      s.word_idx = k → s.words.get? k = some cw →
      s.typeChars cs = (cw.typeWord cs).map fun cw' => ⟨k, s.words.set k cw'⟩ := by
  induction cs with
  | nil =>
      intro s k cw hk hw
      subst hk
      show some s = some ⟨s.word_idx, s.words.set s.word_idx cw⟩
      rw [set_of_get?_eq _ _ _ hw]
  | cons c rest ih =>
      intro s k cw hk hw
      show (match s.handle_key_press c with
            | none => none
            | some s1 => s1.typeChars rest) = _
      cases hq : cw.key_press c with
      | none =>
          have hnone : s.handle_key_press c = none := by
            subst hk
            unfold UserCursor.handle_key_press
            rw [hw]
            show (cw.key_press c).map _ = _
            rw [hq]
            rfl
          have hrw : cw.typeWord (c :: rest) = none := by
            simp only [CursorWord.typeWord, hq]
          rw [hnone, hrw]
          rfl
      | some cw1 =>
          rw [handle_key_press_eq s k cw cw1 c hk hw hq]
          have hset : (⟨k, s.words.set k cw1⟩ : UserCursor).words.get? k = some cw1 := by
            show (s.words.set k cw1).get? k = some cw1
            rw [List.get?_set_eq, hw]
            rfl
          have hih := ih ⟨k, s.words.set k cw1⟩ k cw1 rfl hset
          show (⟨k, s.words.set k cw1⟩ : UserCursor).typeChars rest = _
          rw [hih]
          have hrw : cw.typeWord (c :: rest) = cw1.typeWord rest := by
            simp only [CursorWord.typeWord, hq]
          rw [hrw]
          cases hr : cw1.typeWord rest with
          | none => rfl
          | some cwf => simp only [Option.map_some', List.set_set]

/-! ### Typing through the original region of a word -/

theorem typeWord_within (ts : List Char) :
    ∀ (todo : List Char) (done : List StyledChar) (og : Nat),
      ts.length = todo.length → og = done.length + todo.length →
      CursorWord.typeWord ⟨⟨done ++ todo.map StyledChar.new, og⟩, done.length⟩ ts
        = some ⟨⟨done ++ List.zipWith gradeChar todo ts, og⟩, done.length + ts.length⟩ := by
  induction ts with
  | nil =>
      intro todo done og hlen _
      cases todo with
      | nil => simp [CursorWord.typeWord]
      | cons _ _ => simp at hlen
  | cons c ts' ih =>
      intro todo done og hlen hog
      cases todo with
      | nil => simp at hlen
      | cons e todo' =>
          have hget : ((⟨⟨done ++ (e :: todo').map StyledChar.new, og⟩, done.length⟩ :
              CursorWord)).word.chars.get? done.length = some (StyledChar.new e) := by
            simp only [List.map_cons]
            exact get?_append_cons_length _ _ _
          have hkp := key_press_inrange _ c _ hget
          rw [gradeChar_of_new] at hkp
          simp only [List.map_cons] at hkp
          rw [set_append_cons_length] at hkp
          simp only [List.map_cons] at hkp ⊢
          simp only [CursorWord.typeWord, hkp]
          have hlen' : ts'.length = todo'.length := by
            simp only [List.length_cons] at hlen
            omega
          have hog' : og = (done ++ [gradeChar e c]).length + todo'.length := by
            simp only [List.length_append, List.length_cons, List.length_nil,
              List.length_cons] at hog ⊢
            omega
          have hih := ih todo' (done ++ [gradeChar e c]) og hlen' hog'
          rw [List.append_cons done (gradeChar e c) (todo'.map StyledChar.new),
            show done.length + 1 = (done ++ [gradeChar e c]).length from by simp,
            hih, List.zipWith_cons_cons,
            List.append_cons done (gradeChar e c) (List.zipWith gradeChar todo' ts')]
          refine congrArg some ?_
          simp only [CursorWord.mk.injEq, StyledWord.mk.injEq, List.length_append,
            List.length_cons, List.length_nil, true_and, and_true]
          all_goals omega

/-! ### Typing past the end of a word (overtyping) -/

theorem typeWord_extra (ts : List Char) :
    ∀ (chars : List StyledChar) (og : Nat), og ≤ chars.length →
      CursorWord.typeWord ⟨⟨chars, og⟩, chars.length⟩ ts
        = some ⟨⟨chars ++ (ts.take (og + EXTRA_CHAR_BOUNDARY - chars.length)).map
            StyledChar.new_bad_char, og⟩,
          chars.length + min ts.length (og + EXTRA_CHAR_BOUNDARY - chars.length)⟩ := by
  induction ts with
  | nil =>
      intro chars og _
      simp [CursorWord.typeWord]
  | cons c ts' ih =>
      intro chars og hog
      have hget : ((⟨⟨chars, og⟩, chars.length⟩ : CursorWord)).word.chars.get? chars.length
          = none := List.get?_len_le (Nat.le_refl _)
      by_cases hsat : chars.length + 1 - og > EXTRA_CHAR_BOUNDARY
      · have hkp := key_press_saturated ⟨⟨chars, og⟩, chars.length⟩ c hget hsat
        simp only [CursorWord.typeWord, hkp]
        rw [ih chars og hog]
        have hb : og + EXTRA_CHAR_BOUNDARY - chars.length = 0 := by
          unfold EXTRA_CHAR_BOUNDARY at hsat ⊢
          omega
        rw [hb]
        simp
      · have hkp := key_press_appends ⟨⟨chars, og⟩, chars.length⟩ c hget hsat hog
        simp only [StyledWord.append_char] at hkp
        simp only [CursorWord.typeWord, hkp]
        have hog1 : og ≤ (chars ++ [StyledChar.new_bad_char c]).length := by
          simp only [List.length_append, List.length_cons, List.length_nil]
          omega
        have hlen1 : (chars ++ [StyledChar.new_bad_char c]).length = chars.length + 1 := by
          simp
        rw [show chars.length + 1 = (chars ++ [StyledChar.new_bad_char c]).length
          from hlen1.symm]
        rw [ih (chars ++ [StyledChar.new_bad_char c]) og hog1]
        have hb : og + EXTRA_CHAR_BOUNDARY - chars.length
            = (og + EXTRA_CHAR_BOUNDARY - (chars ++ [StyledChar.new_bad_char c]).length) + 1 := by
          rw [hlen1]
          unfold EXTRA_CHAR_BOUNDARY at hsat ⊢
          omega
        rw [hb, List.take_succ_cons, List.map_cons,
          List.append_cons chars (StyledChar.new_bad_char c)]
        refine congrArg some ?_
        simp only [CursorWord.mk.injEq, StyledWord.mk.injEq, List.length_append,
          List.length_cons, List.length_nil, List.length_take, List.append_assoc,
          List.append_nil, List.singleton_append, true_and, and_true]
        all_goals omega

theorem typeWord_append (xs ys : List Char) :
    ∀ cw : CursorWord, cw.typeWord (xs ++ ys)
      = match cw.typeWord xs with
        | none => none
        | some cw1 => cw1.typeWord ys := by
  induction xs with
  | nil => intro cw; rfl
  | cons c rest ih =>
      intro cw
      show (match cw.key_press c with
            | none => none
            | some cw1 => cw1.typeWord (rest ++ ys)) = _
      cases hq : cw.key_press c with
      | none =>
          have hrw : cw.typeWord (c :: rest) = none := by
            simp only [CursorWord.typeWord, hq]
          rw [hrw]
      | some cw1 =>
          have hrw : cw.typeWord (c :: rest) = cw1.typeWord rest := by
            simp only [CursorWord.typeWord, hq]
          rw [hrw]
          exact ih cw1

/-! ## Claim theorems -/

/-- Claim C5: a space event increments `word_idx` by exactly one,
unconditionally, and leaves every word (characters, states, stored offsets)
unchanged. -/
theorem c5_space_unconditional_advance (s : UserCursor) :
    (s.handle_space_press).word_idx = s.word_idx + 1 ∧
    (s.handle_space_press).words = s.words :=
  ⟨rfl, rfl⟩

/-- Claim C6: the session-completion query returns true exactly when
`word_idx` equals the number of words, for every session state. -/
theorem c6_game_done_iff (s : UserCursor) :
    s.is_game_done = true ↔ s.word_idx = s.words.length := by
  simp [UserCursor.is_game_done]

/-- Claim C4: backspace with the current word's offset at 0 is a no-op when
`word_idx = 0`, and otherwise only decrements `word_idx`, leaving every word
(and its stored offset) untouched. -/
theorem c4_backspace_word_boundary (s : UserCursor) (cw : CursorWord)
    (hw : s.words.get? s.word_idx = some cw) (h0 : cw.cursor_idx = 0) :
    (s.word_idx = 0 → s.handle_delete = some s) ∧
    (0 < s.word_idx → s.handle_delete = some ⟨s.word_idx - 1, s.words⟩) := by
  constructor
  · intro hz
    have hw0 : s.words.get? 0 = some cw := by rw [← hz]; exact hw
    simp only [UserCursor.handle_delete, hz, hw0, h0]
    rfl
  · intro hp
    have hnz : (s.word_idx == 0) = false := by
      simp only [beq_eq_false_iff_ne, ne_eq]
      omega
    simp only [UserCursor.handle_delete, hw, h0, hnz]
    rfl

/-- Witness for C4 at a concrete two-word session sitting on the second
word with offset 0: backspace moves back one word and changes no word. -/
theorem c4_backspace_word_boundary_witness :
    (⟨1, [⟨StyledWord.from_chars ("hi".toList), 3⟩,
        ⟨StyledWord.from_chars ("yo".toList), 0⟩]⟩ : UserCursor).handle_delete
      = some ⟨0, [⟨StyledWord.from_chars ("hi".toList), 3⟩,
        ⟨StyledWord.from_chars ("yo".toList), 0⟩]⟩ := by
  have h := (c4_backspace_word_boundary
    ⟨1, [⟨StyledWord.from_chars ("hi".toList), 3⟩, ⟨StyledWord.from_chars ("yo".toList), 0⟩]⟩
    ⟨StyledWord.from_chars ("yo".toList), 0⟩ rfl rfl).2 (by decide)
  exact h

/-- Claim C3: backspace with offset > 0 decrements the offset; if the new
offset is at or past `og_len` the final (user-introduced) slot is removed and
the length drops by exactly one, otherwise the slot at the new offset keeps
its value, its state becomes Untyped, and the length is unchanged. -/
theorem c3_backspace_in_word (s : UserCursor) (cw : CursorWord)
    (hw : s.words.get? s.word_idx = some cw)
    (hpos : 0 < cw.cursor_idx) (hle : cw.cursor_idx ≤ cw.word.chars.length) :
    (cw.word.og_len ≤ cw.cursor_idx - 1 →
      s.handle_delete = some ⟨s.word_idx, s.words.set s.word_idx
        ⟨⟨cw.word.chars.dropLast, cw.word.og_len⟩, cw.cursor_idx - 1⟩⟩ ∧
      cw.word.chars.dropLast.length = cw.word.chars.length - 1 ∧
      0 < cw.word.chars.length) ∧
    (cw.cursor_idx - 1 < cw.word.og_len →
      ∃ ch, cw.word.chars.get? (cw.cursor_idx - 1) = some ch ∧
        s.handle_delete = some ⟨s.word_idx, s.words.set s.word_idx
          ⟨⟨cw.word.chars.set (cw.cursor_idx - 1) (⟨ch.char, UNTYPED_COLOR⟩ : StyledChar),
            cw.word.og_len⟩, cw.cursor_idx - 1⟩⟩ ∧
        (cw.word.chars.set (cw.cursor_idx - 1)
          (⟨ch.char, UNTYPED_COLOR⟩ : StyledChar)).length = cw.word.chars.length) := by
  have hnz : (cw.cursor_idx == 0) = false := by
    simp only [beq_eq_false_iff_ne, ne_eq]
    omega
  constructor
  · intro hpop
    have hdel : cw.delete_in_word
        = some ⟨⟨cw.word.chars.dropLast, cw.word.og_len⟩, cw.cursor_idx - 1⟩ := by
      simp only [CursorWord.delete_in_word, hpop, if_true]
    refine ⟨?_, List.length_dropLast _, by omega⟩
    simp only [UserCursor.handle_delete, hw, hnz, hdel]
    rfl
  · intro hset
    have hlt : cw.cursor_idx - 1 < cw.word.chars.length := by omega
    obtain ⟨ch, hch⟩ : ∃ ch, cw.word.chars.get? (cw.cursor_idx - 1) = some ch :=
      ⟨_, List.get?_eq_get hlt⟩
    have hdel : cw.delete_in_word
        = some ⟨⟨cw.word.chars.set (cw.cursor_idx - 1)
            (⟨ch.char, UNTYPED_COLOR⟩ : StyledChar), cw.word.og_len⟩, cw.cursor_idx - 1⟩ := by
      have hno : ¬ cw.word.og_len ≤ cw.cursor_idx - 1 := by omega
      simp only [CursorWord.delete_in_word, hno, if_false]
      rw [show cw.word.get_mut_ch (cw.cursor_idx - 1) = some ch from hch]
      rfl
    refine ⟨ch, hch, ?_, List.length_set _ _ _⟩
    simp only [UserCursor.handle_delete, hw, hnz, hdel]
    rfl

/-- Witness for C3 at a concrete session: the word "ab" typed as "ab" plus
one extra character; backspace removes the extra slot, and after that a
backspace within the original range reverts the slot to Untyped. -/
theorem c3_backspace_in_word_witness :
    ((⟨0, [⟨⟨[⟨'a', RColor.Green⟩, ⟨'b', RColor.Green⟩, ⟨'x', RColor.Red⟩], 2⟩, 3⟩]⟩ :
        UserCursor).handle_delete
      = some ⟨0, [⟨⟨[⟨'a', RColor.Green⟩, ⟨'b', RColor.Green⟩], 2⟩, 2⟩]⟩) ∧
    ((⟨0, [⟨⟨[⟨'a', RColor.Green⟩, ⟨'b', RColor.Green⟩], 2⟩, 2⟩]⟩ :
        UserCursor).handle_delete
      = some ⟨0, [⟨⟨[⟨'a', RColor.Green⟩, ⟨'b', RColor.Gray⟩], 2⟩, 1⟩]⟩) := by
  constructor
  · have h := (c3_backspace_in_word
      ⟨0, [⟨⟨[⟨'a', RColor.Green⟩, ⟨'b', RColor.Green⟩, ⟨'x', RColor.Red⟩], 2⟩, 3⟩]⟩
      ⟨⟨[⟨'a', RColor.Green⟩, ⟨'b', RColor.Green⟩, ⟨'x', RColor.Red⟩], 2⟩, 3⟩
      rfl (by decide) (by decide)).1 (by decide)
    exact h.1
  · have h := (c3_backspace_in_word
      ⟨0, [⟨⟨[⟨'a', RColor.Green⟩, ⟨'b', RColor.Green⟩], 2⟩, 2⟩]⟩
      ⟨⟨[⟨'a', RColor.Green⟩, ⟨'b', RColor.Green⟩], 2⟩, 2⟩
      rfl (by decide) (by decide)).2 (by decide)
    obtain ⟨ch, hch, hdel, -⟩ := h
    have hcheq : ch = ⟨'b', RColor.Green⟩ := by
      have : some ch = some (⟨'b', RColor.Green⟩ : StyledChar) := by
        rw [← hch]; rfl
      simpa using this
    subst hcheq
    exact hdel

/-- Claim C1: with the cursor at or past the original length, a keystroke
appends an ExtraMistype slot holding the typed character and increments the
offset while fewer than `EXTRA_CHAR_BOUNDARY` extras exist, and leaves the
word and offset completely unchanged once the extra count reaches the bound;
consequently, typing the word and then `k` extra characters leaves exactly
`min k 5` trailing ExtraMistype slots, capping the length at `og_len + 5`. -/
theorem c1_overtyping_saturation :
    (∀ (s : UserCursor) (cw : CursorWord) (c : Char),
      s.words.get? s.word_idx = some cw → WordInv cw → cw.word.og_len ≤ cw.cursor_idx →
      (cw.word.chars.length < cw.word.og_len + EXTRA_CHAR_BOUNDARY →
        s.handle_key_press c = some ⟨s.word_idx, s.words.set s.word_idx
          ⟨cw.word.append_char (StyledChar.new_bad_char c), cw.cursor_idx + 1⟩⟩) ∧
      (cw.word.chars.length = cw.word.og_len + EXTRA_CHAR_BOUNDARY →
        s.handle_key_press c = some s)) ∧
    (∀ (target typed extras : List Char), typed.length = target.length →
      (⟨0, [⟨StyledWord.from_chars target, 0⟩]⟩ : UserCursor).typeChars (typed ++ extras)
        = some ⟨0, [⟨⟨List.zipWith gradeChar target typed
              ++ (extras.take EXTRA_CHAR_BOUNDARY).map StyledChar.new_bad_char,
            target.length⟩,
          target.length + min extras.length EXTRA_CHAR_BOUNDARY⟩]⟩) := by
  constructor
  · intro s cw c hw hinv hcur
    have hcureq : cw.cursor_idx = cw.word.chars.length := by
      obtain ⟨hog, hmax, hcle, hext⟩ := hinv
      rcases Nat.lt_or_ge cw.word.og_len cw.word.chars.length with h | h
      · exact hext h
      · omega
    have hget : cw.word.chars.get? cw.cursor_idx = none := by
      rw [hcureq]
      exact List.get?_len_le (Nat.le_refl _)
    constructor
    · intro hroom
      have hsat : ¬ cw.word.chars.length + 1 - cw.word.og_len > EXTRA_CHAR_BOUNDARY := by
        omega
      have hog : cw.word.og_len ≤ cw.word.chars.length := hinv.1
      exact handle_key_press_eq s s.word_idx cw _ c rfl hw
        (key_press_appends cw c hget hsat hog)
    · intro hfull
      have hsat : cw.word.chars.length + 1 - cw.word.og_len > EXTRA_CHAR_BOUNDARY := by
        omega
      have h := handle_key_press_eq s s.word_idx cw cw c rfl hw
        (key_press_saturated cw c hget hsat)
      rw [set_of_get?_eq _ _ _ hw] at h
      exact h
  · intro target typed extras hlen
    have hw0 : (⟨0, [⟨StyledWord.from_chars target, 0⟩]⟩ : UserCursor).words.get? 0
        = some ⟨StyledWord.from_chars target, 0⟩ := rfl
    rw [typeChars_eq_typeWord (typed ++ extras) _ 0 ⟨StyledWord.from_chars target, 0⟩ rfl hw0]
    rw [typeWord_append]
    have h1 := typeWord_within typed target [] target.length hlen (by simp)
    simp only [List.nil_append, List.length_nil, Nat.zero_add] at h1
    have hshape : (⟨StyledWord.from_chars target, 0⟩ : CursorWord)
        = ⟨⟨target.map StyledChar.new, target.length⟩, 0⟩ := rfl
    rw [hshape, h1]
    have hzlen : (List.zipWith gradeChar target typed).length = typed.length := by
      rw [List.length_zipWith]
      omega
    have h2 := typeWord_extra extras (List.zipWith gradeChar target typed) target.length
      (by omega)
    show Option.map _ ((⟨⟨List.zipWith gradeChar target typed, target.length⟩,
      typed.length⟩ : CursorWord).typeWord extras) = _
    rw [show typed.length = (List.zipWith gradeChar target typed).length from hzlen.symm, h2]
    have hb : target.length + EXTRA_CHAR_BOUNDARY
        - (List.zipWith gradeChar target typed).length = EXTRA_CHAR_BOUNDARY := by
      omega
    rw [hb, hzlen]
    refine congrArg some ?_
    simp only [UserCursor.mk.injEq, List.set_cons_zero, List.cons.injEq, and_true,
      CursorWord.mk.injEq, StyledWord.mk.injEq, true_and]
    omega

/-- Witness for C1: a fully-typed one-letter word accepts an extra
character; a word with five extras ignores the keystroke; and typing a
two-letter word plus six extras caps the word at five trailing extras. -/
theorem c1_overtyping_saturation_witness :
    ((⟨0, [⟨⟨[⟨'a', RColor.Green⟩], 1⟩, 1⟩]⟩ : UserCursor).handle_key_press 'z'
      = some ⟨0, [⟨⟨[⟨'a', RColor.Green⟩, ⟨'z', RColor.Red⟩], 1⟩, 2⟩]⟩) ∧
    ((⟨0, [⟨⟨[⟨'a', RColor.Green⟩, ⟨'q', RColor.Red⟩, ⟨'q', RColor.Red⟩, ⟨'q', RColor.Red⟩,
        ⟨'q', RColor.Red⟩, ⟨'q', RColor.Red⟩], 1⟩, 6⟩]⟩ : UserCursor).handle_key_press 'z'
      = some ⟨0, [⟨⟨[⟨'a', RColor.Green⟩, ⟨'q', RColor.Red⟩, ⟨'q', RColor.Red⟩,
        ⟨'q', RColor.Red⟩, ⟨'q', RColor.Red⟩, ⟨'q', RColor.Red⟩], 1⟩, 6⟩]⟩) ∧
    ((⟨0, [⟨StyledWord.from_chars ['a', 'b'], 0⟩]⟩ : UserCursor).typeChars
        (['a', 'c'] ++ ['s', 't', 'u', 'v', 'w', 'x'])
      = some ⟨0, [⟨⟨[⟨'a', RColor.Green⟩, ⟨'b', RColor.Red⟩, ⟨'s', RColor.Red⟩,
          ⟨'t', RColor.Red⟩, ⟨'u', RColor.Red⟩, ⟨'v', RColor.Red⟩, ⟨'w', RColor.Red⟩],
        2⟩, 7⟩]⟩) := by
  refine ⟨?_, ?_, ?_⟩
  · have h := ((c1_overtyping_saturation).1
      ⟨0, [⟨⟨[⟨'a', RColor.Green⟩], 1⟩, 1⟩]⟩
      ⟨⟨[⟨'a', RColor.Green⟩], 1⟩, 1⟩ 'z' rfl (by unfold WordInv; decide) (by decide)).1
      (by decide)
    exact h
  · have h := ((c1_overtyping_saturation).1
      ⟨0, [⟨⟨[⟨'a', RColor.Green⟩, ⟨'q', RColor.Red⟩, ⟨'q', RColor.Red⟩, ⟨'q', RColor.Red⟩,
          ⟨'q', RColor.Red⟩, ⟨'q', RColor.Red⟩], 1⟩, 6⟩]⟩
      ⟨⟨[⟨'a', RColor.Green⟩, ⟨'q', RColor.Red⟩, ⟨'q', RColor.Red⟩, ⟨'q', RColor.Red⟩,
          ⟨'q', RColor.Red⟩, ⟨'q', RColor.Red⟩], 1⟩, 6⟩ 'z' rfl (by unfold WordInv; decide)
      (by decide)).2 (by decide)
    exact h
  · have h := (c1_overtyping_saturation).2 ['a', 'b'] ['a', 'c']
      ['s', 't', 'u', 'v', 'w', 'x'] (by decide)
    exact h

/-- Claim C7: typing exactly the target characters into a fresh word marks
every slot within the original length Correct and leaves the offset equal to
the original length. -/
theorem c7_perfect_typing (s : UserCursor) (k : Nat) (target : List Char)
    (hk : s.word_idx = k)
    (hw : s.words.get? k = some ⟨StyledWord.from_chars target, 0⟩) :
    ∃ s', s.typeChars target = some s' ∧ s'.word_idx = k ∧
      s'.words.get? k = some ⟨⟨target.map (fun c => (⟨c, CORRECT_COLOR⟩ : StyledChar)),
        target.length⟩, target.length⟩ := by
  rw [typeChars_eq_typeWord target s k ⟨StyledWord.from_chars target, 0⟩ hk hw]
  have h1 := typeWord_within target target [] target.length rfl (by simp)
  simp only [List.nil_append, List.length_nil, Nat.zero_add] at h1
  have hshape : (⟨StyledWord.from_chars target, 0⟩ : CursorWord)
      = ⟨⟨target.map StyledChar.new, target.length⟩, 0⟩ := rfl
  rw [hshape, h1, zipWith_gradeChar_self]
  refine ⟨⟨k, s.words.set k ⟨⟨target.map (fun c => (⟨c, CORRECT_COLOR⟩ : StyledChar)),
    target.length⟩, target.length⟩⟩, rfl, rfl, ?_⟩
  have hklen : k < s.words.length := by
    rw [← hk] at hw ⊢
    exact (List.get?_eq_some.mp hw).1
  show (s.words.set k _).get? k = _
  rw [List.get?_set_eq, hw]
  rfl

/-- Witness for C7: typing the word "on" exactly turns both slots Correct
with the offset at 2. -/
theorem c7_perfect_typing_witness :
    ∃ s', (⟨0, [⟨StyledWord.from_chars ['o', 'n'], 0⟩]⟩ : UserCursor).typeChars ['o', 'n']
        = some s' ∧ s'.word_idx = 0 ∧
      s'.words.get? 0 = some ⟨⟨[⟨'o', RColor.Green⟩, ⟨'n', RColor.Green⟩], 2⟩, 2⟩ :=
  c7_perfect_typing ⟨0, [⟨StyledWord.from_chars ['o', 'n'], 0⟩]⟩ 0 ['o', 'n'] rfl rfl

/-- Claim C2: every input-event handler preserves, for every word of the
session, that the word is at least as long as its original length, that the
first `og_len` slot values are exactly the target string's characters (so
only states ever change), and that at most `EXTRA_CHAR_BOUNDARY` extra
slots exist. -/
theorem c2_word_invariants_preserved (targets : List String) (s s' : UserCursor)
    (hr : ReachableCursor targets s) (hs : CursorStep s s') :
    ∀ i cw t, s'.words.get? i = some cw → targets.get? i = some t →
      cw.word.og_len ≤ cw.word.chars.length ∧
      cw.word.chars.length ≤ cw.word.og_len + EXTRA_CHAR_BOUNDARY ∧
      cw.word.og_len = t.toList.length ∧
      (cw.word.chars.map StyledChar.get_char_data).take cw.word.og_len = t.toList := by
  have hinv : SessionInv targets s' :=
    reachableCursor_sessionInv (ReachableCursor.step hr hs)
  intro i cw t hgi hti
  obtain ⟨⟨hog, hmax, _, _⟩, hm1, hm2⟩ := hinv.2 i cw t hgi hti
  exact ⟨hog, hmax, hm1, hm2⟩

/-- Witness for C2 after one space keystroke on a fresh one-word session. -/
theorem c2_word_invariants_preserved_witness :
    ((⟨StyledWord.from_string "ab", 0⟩ : CursorWord).word.og_len
        ≤ (⟨StyledWord.from_string "ab", 0⟩ : CursorWord).word.chars.length) ∧
    ((⟨StyledWord.from_string "ab", 0⟩ : CursorWord).word.chars.length
        ≤ (⟨StyledWord.from_string "ab", 0⟩ : CursorWord).word.og_len + EXTRA_CHAR_BOUNDARY) ∧
    ((⟨StyledWord.from_string "ab", 0⟩ : CursorWord).word.og_len
        = ("ab" : String).toList.length) ∧
    (((⟨StyledWord.from_string "ab", 0⟩ : CursorWord).word.chars.map
        StyledChar.get_char_data).take
          (⟨StyledWord.from_string "ab", 0⟩ : CursorWord).word.og_len
      = ("ab" : String).toList) :=
  c2_word_invariants_preserved ["ab"] (initCursor ["ab"])
    ((initCursor ["ab"]).handle_space_press) ReachableCursor.start
    (CursorStep.space (initCursor ["ab"])) 0 ⟨StyledWord.from_string "ab", 0⟩ "ab" rfl rfl

/-- Claim C10: every input-event handler keeps each word's stored offset
within the word, with the offset equal to the word length whenever it is at
or past the original length (extras only exist strictly below the cursor),
so a keystroke landing on an existing slot lands on an original-target slot
and the rendering assertion `cursor_idx <= chars.length` cannot fail. -/
theorem c10_offset_invariants_preserved (targets : List String) (s s' : UserCursor)
    (hr : ReachableCursor targets s) (hs : CursorStep s s') :
    ∀ cw ∈ s'.words, cw.cursor_idx ≤ cw.word.chars.length ∧
      (cw.word.og_len ≤ cw.cursor_idx → cw.cursor_idx = cw.word.chars.length) ∧
      (cw.cursor_idx < cw.word.chars.length → cw.cursor_idx < cw.word.og_len) := by
  have hinv : SessionInv targets s' :=
    reachableCursor_sessionInv (ReachableCursor.step hr hs)
  intro cw hmem
  obtain ⟨i, hgi⟩ := List.mem_iff_get?.mp hmem
  have hilt : i < targets.length := by
    rw [← hinv.1]
    exact (List.get?_eq_some.mp hgi).1
  obtain ⟨t, hti⟩ : ∃ t, targets.get? i = some t := ⟨_, List.get?_eq_get hilt⟩
  obtain ⟨⟨hog, hmax, hcur, hext⟩, _, _⟩ := hinv.2 i cw t hgi hti
  refine ⟨hcur, ?_, ?_⟩
  · intro hge
    rcases Nat.lt_or_ge cw.word.og_len cw.word.chars.length with h | h
    · exact hext h
    · omega
  · intro hlt
    rcases Nat.lt_or_ge cw.cursor_idx cw.word.og_len with h | h
    · exact h
    · have := hext (by omega)
      omega

/-- Witness for C10 after a no-op backspace on a fresh one-word session. -/
theorem c10_offset_invariants_preserved_witness :
    ((⟨StyledWord.from_string "xy", 0⟩ : CursorWord).cursor_idx
        ≤ (⟨StyledWord.from_string "xy", 0⟩ : CursorWord).word.chars.length) ∧
    ((⟨StyledWord.from_string "xy", 0⟩ : CursorWord).word.og_len
          ≤ (⟨StyledWord.from_string "xy", 0⟩ : CursorWord).cursor_idx →
      (⟨StyledWord.from_string "xy", 0⟩ : CursorWord).cursor_idx
        = (⟨StyledWord.from_string "xy", 0⟩ : CursorWord).word.chars.length) ∧
    ((⟨StyledWord.from_string "xy", 0⟩ : CursorWord).cursor_idx
          < (⟨StyledWord.from_string "xy", 0⟩ : CursorWord).word.chars.length →
      (⟨StyledWord.from_string "xy", 0⟩ : CursorWord).cursor_idx
        < (⟨StyledWord.from_string "xy", 0⟩ : CursorWord).word.og_len) :=
  c10_offset_invariants_preserved ["xy"] (initCursor ["xy"]) (initCursor ["xy"])
    ReachableCursor.start (CursorStep.del (initCursor ["xy"]) (initCursor ["xy"]) (by decide))
    ⟨StyledWord.from_string "xy", 0⟩ (by decide)

/-- Counterexample to C8 as stated: a space keystroke on an Idle session
does trigger the Idle-to-Active transition (the code transitions on any
`KeyCode::Char` event, space included), contradicting the claim that space
events never trigger it. -/
theorem c8_counterexample_space_triggers :
    (App.new ["hi"]).user_typing = TypingEvent.AFK ∧
    (App.new ["hi"]).handle_events (KeyCode.Char ' ') 7
      = some ⟨TypingEvent.TYPED 7, false, ⟨1, (initCursor ["hi"]).words⟩⟩ := by
  constructor
  · rfl
  · decide

/-- Claim C8 (amended): the activity marker transitions from Idle to Active
exactly once, on the first character-producing keystroke — including the
space key, since the code transitions on every `KeyCode::Char` event —
storing that event's timestamp; backspace, delete, escape and other events
never trigger it, and once Active no event changes the marker or the stored
timestamp. -/
theorem c8_idle_to_active_once (a : App) (code : KeyCode) (now : Nat) (a' : App)
    (h : a.handle_events code now = some a') :
    (a.user_typing = TypingEvent.AFK →
      ((∃ ch, code = KeyCode.Char ch) → a'.user_typing = TypingEvent.TYPED now) ∧
      ((¬ ∃ ch, code = KeyCode.Char ch) → a'.user_typing = TypingEvent.AFK)) ∧
    (∀ t, a.user_typing = TypingEvent.TYPED t → a'.user_typing = TypingEvent.TYPED t) := by
  cases code with
  | Char ch =>
      simp only [App.handle_events] at h
      cases hcur : (if ch == ' ' then some a.cursor.handle_space_press
          else a.cursor.handle_key_press ch) with
      | none =>
          rw [hcur] at h
          exact Option.noConfusion h
      | some cur =>
          rw [hcur] at h
          cases hu : a.user_typing with
          | AFK =>
              rw [hu] at h
              injection h with h
              subst h
              exact ⟨fun _ => ⟨fun _ => rfl, fun hn => absurd ⟨ch, rfl⟩ hn⟩,
                fun t ht => TypingEvent.noConfusion ht⟩
          | TYPED t0 =>
              rw [hu] at h
              injection h with h
              subst h
              refine ⟨fun hafk => TypingEvent.noConfusion hafk, fun t ht => ?_⟩
              injection ht with ht
              subst ht
              rfl
  | Backspace =>
      simp only [App.handle_events] at h
      cases hd : a.cursor.handle_delete with
      | none =>
          rw [hd] at h
          exact Option.noConfusion h
      | some cur =>
          rw [hd] at h
          simp only [Option.map_some'] at h
          injection h with h
          subst h
          exact ⟨fun hafk => ⟨fun ⟨ch, hch⟩ => KeyCode.noConfusion hch, fun _ => hafk⟩,
            fun t ht => ht⟩
  | Delete =>
      simp only [App.handle_events] at h
      cases hd : a.cursor.handle_delete with
      | none =>
          rw [hd] at h
          exact Option.noConfusion h
      | some cur =>
          rw [hd] at h
          simp only [Option.map_some'] at h
          injection h with h
          subst h
          exact ⟨fun hafk => ⟨fun ⟨ch, hch⟩ => KeyCode.noConfusion hch, fun _ => hafk⟩,
            fun t ht => ht⟩
  | Esc =>
      simp only [App.handle_events] at h
      injection h with h
      subst h
      exact ⟨fun hafk => ⟨fun ⟨ch, hch⟩ => KeyCode.noConfusion hch, fun _ => hafk⟩,
        fun t ht => ht⟩
  | Other =>
      simp only [App.handle_events] at h
      injection h with h
      subst h
      exact ⟨fun hafk => ⟨fun ⟨ch, hch⟩ => KeyCode.noConfusion hch, fun _ => hafk⟩,
        fun t ht => ht⟩

/-- Witness for the amended C8: the first real character keystroke on a
fresh session moves the marker from Idle to Active with the sampled time. -/
theorem c8_idle_to_active_once_witness :
    (App.new ["a"]).user_typing = TypingEvent.AFK ∧
    (⟨TypingEvent.TYPED 3, false, ⟨0, [⟨⟨[⟨'a', RColor.Green⟩], 1⟩, 1⟩]⟩⟩ : App).user_typing
      = TypingEvent.TYPED 3 := by
  refine ⟨rfl, ?_⟩
  have h := (c8_idle_to_active_once (App.new ["a"]) (KeyCode.Char 'a') 3
    ⟨TypingEvent.TYPED 3, false, ⟨0, [⟨⟨[⟨'a', RColor.Green⟩], 1⟩, 1⟩]⟩⟩ (by decide)).1 rfl
  exact h.1 ⟨'a', rfl⟩

/-- Claim C9: the elapsed-time check is a pure function of the sampled time
and the stored start timestamp — false while Idle, and while Active true
exactly when more than 20 seconds have elapsed; and whenever it returns
true, the loop step forces the session into the completed (exit) state
regardless of `word_idx`. -/
theorem c9_timer_check :
    (∀ (a : App) (now : Nat), a.user_typing = TypingEvent.AFK →
      a.is_typing_time_done now = some false) ∧
    (∀ (a : App) (now start : Nat), a.user_typing = TypingEvent.TYPED start → start ≤ now →
      a.is_typing_time_done now = some (decide (now - start > 20))) ∧
    (∀ (a : App) (code : KeyCode) (now : Nat) (a1 : App),
      a.handle_events code now = some a1 → a1.is_typing_time_done now = some true →
      a.run_step code now = some ⟨a1.user_typing, true, a1.cursor⟩) := by
  refine ⟨?_, ?_, ?_⟩
  · intro a now hu
    simp only [App.is_typing_time_done, hu]
  · intro a now start hu hle
    simp only [App.is_typing_time_done, hu, if_neg (by omega : ¬ now < start)]
  · intro a code now a1 h ht
    simp only [App.run_step, h, ht, Bool.or_true]

/-- Witness for C9: an Idle session reports false; an Active session started
at 0 reports true at time 25; and an Esc event at time 25 forces the exit
flag regardless of the cursor position. -/
theorem c9_timer_check_witness :
    ((App.new ["a"]).is_typing_time_done 25 = some false) ∧
    ((⟨TypingEvent.TYPED 0, false, initCursor ["a"]⟩ : App).is_typing_time_done 25
      = some true) ∧
    ((⟨TypingEvent.TYPED 0, false, initCursor ["a"]⟩ : App).run_step KeyCode.Esc 25
      = some ⟨TypingEvent.TYPED 0, true, initCursor ["a"]⟩) := by
  refine ⟨?_, ?_, ?_⟩
  · exact c9_timer_check.1 (App.new ["a"]) 25 rfl
  · have h := c9_timer_check.2.1 ⟨TypingEvent.TYPED 0, false, initCursor ["a"]⟩ 25 0 rfl
      (by decide)
    simpa using h
  · exact c9_timer_check.2.2 ⟨TypingEvent.TYPED 0, false, initCursor ["a"]⟩ KeyCode.Esc 25
      ⟨TypingEvent.TYPED 0, true, initCursor ["a"]⟩ rfl (by decide)
